import Mathlib

/-!
Verification of the perceptual-hash robustness benchmark.

The development shallowly embeds the scoring pipeline of `src/utils.py`
(`extract_features`, `match_features`, `calculate_match_score`,
`detect_matches`) and the evaluation driver of `src/detect.py` (`main`:
directory enumeration, per-cell scoring with the missing-file sentinel,
per-manipulation means and hardest-manipulation selection).

External library calls (PIL image decoding and conversion to luminance,
and the 64-bit perceptual hash of the imagehash package) are not part of
the repository; they are modelled abstractly, as stated in the doc
comments below.
-/

namespace ImageBench

/-- A 64-bit perceptual fingerprint: one Boolean per bit position.
Mirrors the 8x8 = 64 bit hash produced by `imagehash.phash`. -/
def Fingerprint : Type := Fin 64 → Bool

instance : DecidableEq Fingerprint := by
  unfold Fingerprint; infer_instance

/-- Hamming distance between two 64-bit fingerprints: the number of bit
positions where they differ.  Mirrors `desc1 - desc2` on imagehash
values, which counts the nonzero entries of the elementwise bit
difference. -/
def hammingDistance (a b : Fingerprint) : ℕ :=
  (Finset.univ.filter fun i => a i ≠ b i).card

/-- Modelled from the spec: a decoded in-memory raster image (the PIL
image object), with its color mode and pixel grid.  The pixel payload is
abstract as far as the claims are concerned. -/
structure Image where
  mode : String
  pixels : List (List ℕ)
deriving DecidableEq

/-- Modelled from the spec: the external image library collaborators that
the repository calls but does not define.  `convertL` is PIL
`Image.convert` to single-channel luminance (mode L); `phash` is the
frequency-domain 64-bit perceptual hash of the imagehash package.  Both
are deterministic pure functions of the decoded image, per section 4.1 of
the spec; their internals are opaque to the claims, so they are fields of
this structure rather than fixed functions. -/
structure PHashLib where
  convertL : Image → Image
  phash : Image → Fingerprint

/-- The ad-hoc match wrapper of `src/utils.py` (`class MockMatch`): it
carries a single integer distance field. -/
structure MockMatch where
  distance : ℕ
deriving DecidableEq

/-- `src/utils.py` `extract_features(img, method)`: for method `phash`
return the perceptual hash of the image paired with `None`; for any other
method return `(None, None)`.  (The `numpy.ndarray` branch converting an
array to a PIL image is identity in this model, since `Image` already
denotes the decoded image.) -/
def extract_features (lib : PHashLib) (img : Image) (method : String) :
    Option Fingerprint × Option Unit :=
  if method = "phash" then (some (lib.phash img), none) else (none, none)

/-- `src/utils.py` `match_features(desc1, desc2, method)`: if either
descriptor is `None` return the empty list; for method `phash` return a
one-element list holding the Hamming distance of the two fingerprints;
otherwise return the empty list. -/
def match_features (desc1 desc2 : Option Fingerprint) (method : String) :
    List MockMatch :=
  match desc1, desc2 with
  | none, _ => []
  | _, none => []
  | some d1, some d2 =>
      if method = "phash" then [⟨hammingDistance d1 d2⟩] else []

/-- `src/utils.py` `calculate_match_score(matches, method, threshold)`:
an empty match list scores 0; for method `phash` the score is
`(64 - distance) / 64 * 100` computed from the first match; any other
method scores 0.  The `threshold` parameter is unused by the source and
is kept for fidelity.  Python float arithmetic on these small integers is
exact, so the score is modelled in `ℚ`.  (The source parameter named
matches is renamed, that word being reserved in Lean.) -/
def calculate_match_score (ms : List MockMatch) (method : String)
    (threshold : ℚ) : ℚ :=
  match ms with
  | [] => 0
  | m :: _ => if method = "phash" then ((64 : ℚ) - m.distance) / 64 * 100 else 0

/-- The state of one path on disk, as the driver and `detect_matches`
observe it: absent, present but not decodable as an image (PIL
`Image.open` raises, and `UnidentifiedImageError` is an `OSError`, which
`IOError` aliases), or present and decodable. -/
inductive FileEntry : Type
  | missing : FileEntry
  | unreadable : FileEntry
  | image (img : Image) : FileEntry
deriving DecidableEq

/-- The filesystem as observed during one run: a map from path to the
state of that path. -/
def FS : Type := String → FileEntry

/-- `os.path.exists(p)`: true unless the path is absent. -/
def pathExists (fs : FS) (p : String) : Bool :=
  match fs p with
  | .missing => false
  | _ => true

/-- `PIL.Image.open(p)` as used inside the `try` of `detect_matches`:
yields the decoded image exactly when the path holds a decodable image;
missing and undecodable paths both raise an exception in the caught
`(IOError, FileNotFoundError)` family, modelled as `none`. -/
def openImage (fs : FS) (p : String) : Option Image :=
  match fs p with
  | .image img => some img
  | _ => none

/-- `src/utils.py` `detect_matches(original_path, manipulated_path,
method)`: open both images (any failure is caught and yields 0), convert
each to luminance with `convert(L)`, extract a fingerprint from each
converted image, match the fingerprints, and score the matches (with the
default threshold 0.75). -/
def detect_matches (fs : FS) (lib : PHashLib)
    (original_path manipulated_path : String) (method : String) : ℚ :=
  match openImage fs original_path, openImage fs manipulated_path with
  | some img1, some img2 =>
      let img1_gray := lib.convertL img1
      let img2_gray := lib.convertL img2
      let h1 := extract_features lib img1_gray method
      let h2 := extract_features lib img2_gray method
      calculate_match_score (match_features h1.1 h2.1 method) method (3 / 4)
  | _, _ => 0

/-- The manipulation catalogue of `src/utils.py` (`MANIPULATION_TYPES`):
an insertion-ordered mapping from single-letter code to manipulation
name, modelled as an association list in source order. -/
def MANIPULATION_TYPES : List (String × String) :=
  [("a", "crop_20"), ("b", "rotate_10"), ("c", "flip_h"),
   ("d", "brightness_1.3"), ("e", "contrast_0.7"), ("f", "gaussian_blur"),
   ("g", "noise_saltpepper"), ("h", "color_filter"), ("i", "watermark"),
   ("j", "canvas_expand"), ("k", "jpeg_compression"), ("l", "collage"),
   ("m", "text_obfuscation"), ("n", "invert_colors")]

/-- `src/utils.py` `get_all_manipulation_types()`: the catalogue names in
catalogue order. -/
def get_all_manipulation_types (catalogue : List (String × String)) :
    List String :=
  catalogue.map Prod.snd

/-- Python `os.path.join(a, b)` for a relative name under a directory. -/
def pathJoin (a b : String) : String := a ++ "/" ++ b

/-- Python `os.path.splitext(s)[0]` for a bare filename (no directory
separator): drop the suffix starting at the last dot, unless every
character before that dot is itself a dot (so ".jpg" keeps its name). -/
def splitextStem (s : String) : String :=
  let cs := s.data
  if ('.' ∈ cs) then
    let i := cs.length - 1 - (cs.reverse.indexOf '.')
    let pre := cs.take i
    if pre.any (fun c => c ≠ '.') then String.mk pre else s
  else s

/-- The extension filter of `src/detect.py` line 52:
`f.lower().endswith((".jpg", ".jpeg", ".png"))`. -/
def isImageFile (f : String) : Bool :=
  (f.toLower.endsWith ".jpg") || (f.toLower.endsWith ".jpeg")
    || (f.toLower.endsWith ".png")

/-- `src/detect.py` line 52: the sorted, extension-filtered listing of
the originals directory.  The raw directory listing is the input; Python
`sorted` is modelled by a stable merge sort under the lexicographic
string order. -/
def listOriginals (listing : List String) : List String :=
  (listing.filter isImageFile).mergeSort (fun a b => decide (a ≤ b))

/-- One row of the results table: the image identifier and one score per
catalogue entry, in catalogue order.  (`src/detect.py` stores the table
as one list per manipulation name plus an `image_id` list; row `i` of
that table is entry `i` of each list, which this structure represents
directly.) -/
structure ResultRow where
  image_id : String
  scores : List ℚ
deriving DecidableEq

/-- `src/detect.py` line 66: the expected manipulated filename
`{image_id}{letter}.jpg`. -/
def manipFileName (image_id letter : String) : String :=
  image_id ++ letter ++ ".jpg"

/-- One (image, manipulation) cell of the driver loop, `src/detect.py`
lines 65-74: if the expected manipulated file is absent, record 0 and
continue; otherwise score the pair with `detect_matches`. -/
def evalCell (fs : FS) (lib : PHashLib)
    (manipulatedDir orig_path image_id letter : String) : ℚ :=
  let manip_path := pathJoin manipulatedDir (manipFileName image_id letter)
  if pathExists fs manip_path then
    detect_matches fs lib orig_path manip_path "phash"
  else 0

/-- One full row of the driver loop, `src/detect.py` lines 60-74: derive
the identifier (filename without extension) and score every catalogue
entry in catalogue order. -/
def evalRow (fs : FS) (lib : PHashLib)
    (originalsDir manipulatedDir : String)
    (catalogue : List (String × String)) (orig_file : String) : ResultRow :=
  let orig_path := pathJoin originalsDir orig_file
  let image_id := splitextStem orig_file
  ⟨image_id,
   catalogue.map fun lc => evalCell fs lib manipulatedDir orig_path image_id lc.1⟩

/-- The driver evaluation of `src/detect.py` `main`, lines 52-76: one row
per original image, rows in sorted original-filename order. -/
def evaluate (fs : FS) (lib : PHashLib)
    (originalsDir manipulatedDir : String) (listing : List String)
    (catalogue : List (String × String)) : List ResultRow :=
  (listOriginals listing).map
    (evalRow fs lib originalsDir manipulatedDir catalogue)

/-- Arithmetic mean of a list of rationals, as `pandas` `Series.mean`
computes it on a fully populated column. -/
def listMean (xs : List ℚ) : ℚ := xs.sum / xs.length

/-- `src/detect.py` line 81: the per-manipulation mean scores, one entry
per catalogue name, in catalogue (dict insertion) order; entry `k` is the
mean of column `k` across all rows. -/
def avg_scores (rows : List ResultRow) (catalogue : List (String × String)) :
    List (String × ℚ) :=
  catalogue.enum.map fun ki =>
    (ki.2.2, listMean (rows.filterMap fun r => r.scores.get? ki.1))

/-- Python `min(xs, key=value)` on a nonempty association list: scan left
to right, replacing the current best only on a strictly smaller value, so
the first minimum wins. -/
def argminFirst {α : Type} : List (α × ℚ) → Option (α × ℚ)
  | [] => none
  | x :: xs => some (xs.foldl (fun acc y => if y.2 < acc.2 then y else acc) x)

/-- `src/detect.py` lines 82-83: the hardest manipulation, selected as
`min(avg_scores, key=avg_scores.get)` together with its mean. -/
def hardest_manip (rows : List ResultRow)
    (catalogue : List (String × String)) : Option (String × ℚ) :=
  argminFirst (avg_scores rows catalogue)

/-! Concrete inputs used by the witness theorems. -/

/-- The all-zero fingerprint. -/
def fpZero : Fingerprint := fun _ => false

/-- A concrete instance of the external library model: luminance
conversion sets the mode to L, and every image hashes to the all-zero
fingerprint. -/
def trivialLib : PHashLib :=
  ⟨fun i => { i with mode := "L" }, fun _ => fpZero⟩

/-- A concrete decoded color image. -/
def imgA : Image := ⟨"RGB", [[1, 2], [3, 4]]⟩

/-- A filesystem on which every path is absent. -/
def fsEmpty : FS := fun _ => FileEntry.missing

/-- A filesystem on which every path is present but not decodable. -/
def fsBad : FS := fun _ => FileEntry.unreadable

/-- A filesystem on which every path decodes to `imgA`. -/
def fsAll : FS := fun _ => FileEntry.image imgA

/-! Basic facts about the Hamming distance and the score formula. -/

lemma hammingDistance_le (a b : Fingerprint) : hammingDistance a b ≤ 64 := by
  unfold hammingDistance
  simpa using Finset.card_filter_le (Finset.univ : Finset (Fin 64)) (fun i => a i ≠ b i)

lemma hammingDistance_self (a : Fingerprint) : hammingDistance a a = 0 := by
  simp [hammingDistance]

lemma hammingDistance_comm (a b : Fingerprint) :
    hammingDistance a b = hammingDistance b a := by
  unfold hammingDistance
  congr 1
  apply Finset.filter_congr
  intro i _
  exact ne_comm

lemma calculate_match_score_phash_pair (a b : Fingerprint) (t : ℚ) :
    calculate_match_score (match_features (some a) (some b) "phash") "phash" t
      = ((64 : ℚ) - hammingDistance a b) / 64 * 100 := by
  simp [calculate_match_score, match_features]

lemma score_bounds (d : ℕ) (hd : d ≤ 64) :
    0 ≤ ((64 : ℚ) - d) / 64 * 100 ∧ ((64 : ℚ) - d) / 64 * 100 ≤ 100 := by
  have h1 : (d : ℚ) ≤ 64 := by exact_mod_cast hd
  have h0 : (0 : ℚ) ≤ (d : ℚ) := Nat.cast_nonneg d
  constructor
  · apply mul_nonneg
    · apply div_nonneg
      · linarith
      · norm_num
    · norm_num
  · rw [div_mul_eq_mul_div, div_le_iff₀ (by norm_num : (0:ℚ) < 64)]
    linarith

/-- C1: for every pair of 64-bit fingerprints, the score that
`calculate_match_score` returns on the single match produced by
`match_features` is `(64 - d) / 64 * 100`, where `d` is the Hamming
distance of the two fingerprints, and this value lies in `[0, 100]`
inclusive (for every threshold argument, which the source ignores). -/
theorem C1_score_formula_and_range (a b : Fingerprint) (t : ℚ) :
    calculate_match_score (match_features (some a) (some b) "phash") "phash" t
      = ((64 : ℚ) - hammingDistance a b) / 64 * 100
    ∧ 0 ≤ calculate_match_score (match_features (some a) (some b) "phash") "phash" t
    ∧ calculate_match_score (match_features (some a) (some b) "phash") "phash" t ≤ 100 := by
  have h := score_bounds (hammingDistance a b) (hammingDistance_le a b)
  rw [calculate_match_score_phash_pair]
  exact ⟨rfl, h.1, h.2⟩

/-- C6: comparing a fingerprint with itself scores exactly 100, and
`detect_matches` applied to one readable image path twice returns 100. -/
theorem C6_self_match_is_100 (fs : FS) (lib : PHashLib) (p : String)
    (img : Image) (h : fs p = FileEntry.image img) :
    (∀ f : Fingerprint,
        calculate_match_score (match_features (some f) (some f) "phash") "phash" (3 / 4) = 100)
    ∧ detect_matches fs lib p p "phash" = 100 := by
  have hscore : ∀ f : Fingerprint,
      calculate_match_score (match_features (some f) (some f) "phash") "phash" (3 / 4) = 100 := by
    intro f
    rw [calculate_match_score_phash_pair, hammingDistance_self]
    norm_num
  refine ⟨hscore, ?_⟩
  have hopen : openImage fs p = some img := by simp [openImage, h]
  simp [detect_matches, hopen, extract_features, calculate_match_score_phash_pair,
    hammingDistance_self]

/-- C6 witness: on a filesystem where the path decodes to the concrete
image `imgA`, the self-comparison score is 100. -/
theorem C6_self_match_is_100_witness :
    fsAll "originals/img1.jpg" = FileEntry.image imgA
    ∧ ((∀ f : Fingerprint,
          calculate_match_score (match_features (some f) (some f) "phash") "phash" (3 / 4) = 100)
        ∧ detect_matches fsAll trivialLib "originals/img1.jpg" "originals/img1.jpg" "phash" = 100) :=
  ⟨rfl, C6_self_match_is_100 fsAll trivialLib "originals/img1.jpg" imgA rfl⟩

/-- C7: the score of two present fingerprints is symmetric in its two
arguments and always lies in `[0, 100]`. -/
theorem C7_score_symmetric_and_bounded (a b : Fingerprint) (t : ℚ) :
    calculate_match_score (match_features (some a) (some b) "phash") "phash" t
      = calculate_match_score (match_features (some b) (some a) "phash") "phash" t
    ∧ 0 ≤ calculate_match_score (match_features (some a) (some b) "phash") "phash" t
    ∧ calculate_match_score (match_features (some a) (some b) "phash") "phash" t ≤ 100 := by
  refine ⟨?_, ?_, ?_⟩
  · rw [calculate_match_score_phash_pair, calculate_match_score_phash_pair,
      hammingDistance_comm a b]
  · rw [calculate_match_score_phash_pair]
    exact (score_bounds _ (hammingDistance_le a b)).1
  · rw [calculate_match_score_phash_pair]
    exact (score_bounds _ (hammingDistance_le a b)).2

/-- C8: whenever both paths decode, `detect_matches` hashes the
luminance conversion `convertL` of each decoded image, whatever its
color mode: the score equals the score of the fingerprints
`phash (convertL img1)` and `phash (convertL img2)`, so the conversion
step is never skipped. -/
theorem C8_grayscale_before_hash (fs : FS) (lib : PHashLib)
    (p1 p2 : String) (img1 img2 : Image)
    (h1 : fs p1 = FileEntry.image img1) (h2 : fs p2 = FileEntry.image img2) :
    detect_matches fs lib p1 p2 "phash"
      = calculate_match_score
          (match_features (some (lib.phash (lib.convertL img1)))
            (some (lib.phash (lib.convertL img2))) "phash") "phash" (3 / 4) := by
  have hopen1 : openImage fs p1 = some img1 := by simp [openImage, h1]
  have hopen2 : openImage fs p2 = some img2 := by simp [openImage, h2]
  simp [detect_matches, hopen1, hopen2, extract_features]

/-- C8 witness: at a concrete non-grayscale image (`imgA` has mode RGB)
the score of `detect_matches` is the score of the hashes of the
luminance conversions. -/
theorem C8_grayscale_before_hash_witness :
    fsAll "originals/a.jpg" = FileEntry.image imgA
    ∧ imgA.mode ≠ "L"
    ∧ detect_matches fsAll trivialLib "originals/a.jpg" "manipulated/aa.jpg" "phash"
        = calculate_match_score
            (match_features (some (trivialLib.phash (trivialLib.convertL imgA)))
              (some (trivialLib.phash (trivialLib.convertL imgA))) "phash") "phash" (3 / 4) :=
  ⟨rfl, by decide,
    C8_grayscale_before_hash fsAll trivialLib "originals/a.jpg" "manipulated/aa.jpg"
      imgA imgA rfl rfl⟩

/-- C9: when one or both fingerprints are absent, `match_features`
returns the empty match list — no Hamming distance is formed — and
`calculate_match_score` maps the empty list (for any method and
threshold) to score 0. -/
theorem C9_absent_fingerprint_scores_zero (o : Option Fingerprint)
    (method : String) (t : ℚ) :
    match_features none o method = []
    ∧ match_features o none method = []
    ∧ calculate_match_score [] method t = 0
    ∧ calculate_match_score (match_features none o method) method t = 0
    ∧ calculate_match_score (match_features o none method) method t = 0 := by
  cases o <;> simp [match_features, calculate_match_score]

/-- C10: for any method other than phash, the pipeline degenerates:
`extract_features` yields no fingerprint, `match_features` yields no
matches, `calculate_match_score` yields 0, and `detect_matches` returns
0 on every pair of paths — including two readable copies of the same
image. -/
theorem C10_non_phash_method_scores_zero (fs : FS) (lib : PHashLib)
    (p1 p2 : String) (method : String) (t : ℚ) (h : method ≠ "phash") :
    (∀ img : Image, extract_features lib img method = (none, none))
    ∧ (∀ d1 d2 : Option Fingerprint, match_features d1 d2 method = [])
    ∧ (∀ ms : List MockMatch, calculate_match_score ms method t = 0)
    ∧ detect_matches fs lib p1 p2 method = 0 := by
  have hext : ∀ img : Image, extract_features lib img method = (none, none) := by
    intro img
    simp [extract_features, h]
  have hmatch : ∀ d1 d2 : Option Fingerprint, match_features d1 d2 method = [] := by
    intro d1 d2
    cases d1 <;> cases d2 <;> simp [match_features, h]
  have hscore : ∀ (u : ℚ) (ms : List MockMatch), calculate_match_score ms method u = 0 := by
    intro u ms
    cases ms <;> simp [calculate_match_score, h]
  refine ⟨hext, hmatch, hscore t, ?_⟩
  unfold detect_matches
  cases openImage fs p1 <;> cases openImage fs p2 <;>
    simp [hext, hmatch, hscore]

/-- C10 witness: with method sift on a filesystem where both paths are
readable copies of the same image, `detect_matches` returns 0. -/
theorem C10_non_phash_method_scores_zero_witness :
    "sift" ≠ "phash"
    ∧ ((∀ img : Image, extract_features trivialLib img "sift" = (none, none))
        ∧ (∀ d1 d2 : Option Fingerprint, match_features d1 d2 "sift" = [])
        ∧ (∀ ms : List MockMatch, calculate_match_score ms "sift" (3 / 4) = 0)
        ∧ detect_matches fsAll trivialLib "originals/x.jpg" "originals/x.jpg" "sift" = 0) :=
  ⟨by decide,
    C10_non_phash_method_scores_zero fsAll trivialLib "originals/x.jpg" "originals/x.jpg"
      "sift" (3 / 4) (by decide)⟩

/-- C2: when the expected manipulated file `{identifier}{code}.jpg` of a
catalogue cell is absent on disk, the driver row records score 0 for
that cell, the row still holds one score per catalogue entry (the loop
continues and does not crash), and the recorded 0 is independent of the
hashing library, since neither the Extractor nor the Scorer runs. -/
theorem C2_missing_manipulated_file_scores_zero (fs : FS) (lib : PHashLib)
    (originalsDir manipulatedDir orig_file : String)
    (catalogue : List (String × String)) (k : ℕ) (lc : String × String)
    (hk : catalogue.get? k = some lc)
    (hmiss : fs (pathJoin manipulatedDir
        (manipFileName (splitextStem orig_file) lc.1)) = FileEntry.missing) :
    (evalRow fs lib originalsDir manipulatedDir catalogue orig_file).scores.get? k = some 0
    ∧ (evalRow fs lib originalsDir manipulatedDir catalogue orig_file).scores.length
        = catalogue.length
    ∧ ∀ lib' : PHashLib,
        (evalRow fs lib' originalsDir manipulatedDir catalogue orig_file).scores.get? k
          = some 0 := by
  have hcell : ∀ lib' : PHashLib,
      (evalRow fs lib' originalsDir manipulatedDir catalogue orig_file).scores.get? k
        = some 0 := by
    intro lib'
    simp only [evalRow, List.get?_map, hk, Option.map_some]
    have : pathExists fs (pathJoin manipulatedDir
        (manipFileName (splitextStem orig_file) lc.1)) = false := by
      simp [pathExists, hmiss]
    simp [evalCell, this]
  exact ⟨hcell lib, by simp [evalRow], hcell⟩

/-- C2 witness: on the all-missing filesystem, cell 0 of the row for
img1.jpg under the full catalogue records 0, and the row has one score
per catalogue entry. -/
theorem C2_missing_manipulated_file_scores_zero_witness :
    MANIPULATION_TYPES.get? 0 = some ("a", "crop_20")
    ∧ fsEmpty (pathJoin "manipulated"
        (manipFileName (splitextStem "img1.jpg") "a")) = FileEntry.missing
    ∧ ((evalRow fsEmpty trivialLib "originals" "manipulated" MANIPULATION_TYPES
          "img1.jpg").scores.get? 0 = some 0
        ∧ (evalRow fsEmpty trivialLib "originals" "manipulated" MANIPULATION_TYPES
            "img1.jpg").scores.length = MANIPULATION_TYPES.length
        ∧ ∀ lib' : PHashLib,
            (evalRow fsEmpty lib' "originals" "manipulated" MANIPULATION_TYPES
              "img1.jpg").scores.get? 0 = some 0) :=
  ⟨rfl, rfl,
    C2_missing_manipulated_file_scores_zero fsEmpty trivialLib "originals" "manipulated"
      "img1.jpg" MANIPULATION_TYPES 0 ("a", "crop_20") rfl rfl⟩

/-- C3: when the expected manipulated file of a catalogue cell is
present on disk but not decodable as an image, the driver row records
the sentinel 0 for that cell (the broad catch inside `detect_matches`
swallows the decode failure), and the row still holds one score per
catalogue entry, so a single bad pair never aborts the run; in this
model only the upstream directory enumeration, which happens before
`evaluate`, can fail hard. -/
theorem C3_undecodable_manipulated_file_scores_zero (fs : FS) (lib : PHashLib)
    (originalsDir manipulatedDir orig_file : String)
    (catalogue : List (String × String)) (k : ℕ) (lc : String × String)
    (hk : catalogue.get? k = some lc)
    (hbad : fs (pathJoin manipulatedDir
        (manipFileName (splitextStem orig_file) lc.1)) = FileEntry.unreadable) :
    (evalRow fs lib originalsDir manipulatedDir catalogue orig_file).scores.get? k = some 0
    ∧ (evalRow fs lib originalsDir manipulatedDir catalogue orig_file).scores.length
        = catalogue.length := by
  have hcell : evalCell fs lib manipulatedDir (pathJoin originalsDir orig_file)
      (splitextStem orig_file) lc.1 = 0 := by
    have hex : pathExists fs (pathJoin manipulatedDir
        (manipFileName (splitextStem orig_file) lc.1)) = true := by
      simp [pathExists, hbad]
    have hopen : openImage fs (pathJoin manipulatedDir
        (manipFileName (splitextStem orig_file) lc.1)) = none := by
      simp [openImage, hbad]
    simp only [evalCell, hex, if_true]
    unfold detect_matches
    rw [hopen]
    cases openImage fs (pathJoin originalsDir orig_file) <;> simp
  constructor
  · simp only [evalRow, List.get?_map, hk, Option.map_some', Option.some.injEq]
    exact hcell
  · simp [evalRow]

/-- C3 witness: on the filesystem where every path is present but
undecodable, cell 0 of the row for img1.jpg records 0 and the row has
one score per catalogue entry. -/
theorem C3_undecodable_manipulated_file_scores_zero_witness :
    MANIPULATION_TYPES.get? 0 = some ("a", "crop_20")
    ∧ fsBad (pathJoin "manipulated"
        (manipFileName (splitextStem "img1.jpg") "a")) = FileEntry.unreadable
    ∧ ((evalRow fsBad trivialLib "originals" "manipulated" MANIPULATION_TYPES
          "img1.jpg").scores.get? 0 = some 0
        ∧ (evalRow fsBad trivialLib "originals" "manipulated" MANIPULATION_TYPES
            "img1.jpg").scores.length = MANIPULATION_TYPES.length) :=
  ⟨rfl, rfl,
    C3_undecodable_manipulated_file_scores_zero fsBad trivialLib "originals" "manipulated"
      "img1.jpg" MANIPULATION_TYPES 0 ("a", "crop_20") rfl rfl⟩

/-- C4: the result table has exactly one row per filtered original
image, rows appear in sorted original-filename order (the row
identifiers are the stems of the stably sorted filtered listing, which
is sorted and a permutation of the filtered listing), and every row
holds exactly one populated score per catalogue entry, whatever the
state of the filesystem. -/
theorem C4_table_shape (fs : FS) (lib : PHashLib)
    (originalsDir manipulatedDir : String) (listing : List String)
    (catalogue : List (String × String)) :
    (evaluate fs lib originalsDir manipulatedDir listing catalogue).length
        = (listing.filter isImageFile).length
    ∧ (evaluate fs lib originalsDir manipulatedDir listing catalogue).map ResultRow.image_id
        = (listOriginals listing).map splitextStem
    ∧ (listOriginals listing).Perm (listing.filter isImageFile)
    ∧ List.Sorted (fun a b : String => a ≤ b) (listOriginals listing)
    ∧ ∀ r ∈ evaluate fs lib originalsDir manipulatedDir listing catalogue,
        r.scores.length = catalogue.length := by
  refine ⟨?_, ?_, ?_, ?_, ?_⟩
  · simp [evaluate, listOriginals, List.length_mergeSort]
  · simp [evaluate, List.map_map, evalRow, Function.comp]
  · exact List.mergeSort_perm _ _
  · have htrans : ∀ a b c : String,
        decide (a ≤ b) = true → decide (b ≤ c) = true → decide (a ≤ c) = true := by
      intro a b c hab hbc
      simp only [decide_eq_true_eq] at *
      exact le_trans hab hbc
    have htotal : ∀ a b : String, (decide (a ≤ b) || decide (b ≤ a)) = true := by
      intro a b
      simp only [Bool.or_eq_true, decide_eq_true_eq]
      exact le_total a b
    have hpair := List.sorted_mergeSort htrans htotal (listing.filter isImageFile)
    exact hpair.imp fun h => of_decide_eq_true h
  · intro r hr
    obtain ⟨f, _, rfl⟩ := List.mem_map.mp hr
    simp [evalRow]

/-- Python min with a key function over a nonempty list, modelled by
`argminFirst`: the result splits the list as `pre ++ result :: post`
with the result value minimal overall and strictly below every value in
`pre`, so the first minimum is selected. -/
lemma foldl_min_firstMin {α : Type} (xs : List (α × ℚ)) :
    ∀ x : α × ℚ, ∃ pre post,
      x :: xs = pre ++ (xs.foldl (fun acc y => if y.2 < acc.2 then y else acc) x) :: post
      ∧ (∀ e ∈ x :: xs, (xs.foldl (fun acc y => if y.2 < acc.2 then y else acc) x).2 ≤ e.2)
      ∧ (∀ e ∈ pre, (xs.foldl (fun acc y => if y.2 < acc.2 then y else acc) x).2 < e.2) := by
  induction xs with
  | nil =>
      intro x
      exact ⟨[], [], rfl, by simp, by simp⟩
  | cons y ys ih =>
      intro x
      simp only [List.foldl_cons]
      by_cases hxy : y.2 < x.2
      · rw [if_pos hxy]
        obtain ⟨pre, post, heq, hmin, hstrict⟩ := ih y
        refine ⟨x :: pre, post, ?_, ?_, ?_⟩
        · rw [List.cons_append, ← heq]
        · intro e he
          rcases List.mem_cons.mp he with rfl | he'
          · exact le_trans (hmin y (by simp)) (le_of_lt hxy)
          · exact hmin e he'
        · intro e he
          rcases List.mem_cons.mp he with rfl | he'
          · exact lt_of_le_of_lt (hmin y (by simp)) hxy
          · exact hstrict e he'
      · rw [if_neg hxy]
        have hxy' : x.2 ≤ y.2 := le_of_not_lt hxy
        obtain ⟨pre, post, heq, hmin, hstrict⟩ := ih x
        cases pre with
        | nil =>
            simp only [List.nil_append] at heq
            have hx := (List.cons.injEq _ _ _ _).mp heq
            refine ⟨[], y :: ys, ?_, ?_, by simp⟩
            · rw [List.nil_append, ← hx.1]
            · intro e he
              rcases List.mem_cons.mp he with rfl | he'
              · rw [← hx.1]
              · rcases List.mem_cons.mp he' with rfl | he''
                · rw [← hx.1]; exact hxy'
                · exact hmin e (List.mem_cons_of_mem x he'')
        | cons p pre' =>
            simp only [List.cons_append] at heq
            have hx := (List.cons.injEq _ _ _ _).mp heq
            have hpx : p = x := hx.1.symm
            have hys : ys = pre' ++ (ys.foldl (fun acc y => if y.2 < acc.2 then y else acc) x) :: post := hx.2
            have hrx : (ys.foldl (fun acc y => if y.2 < acc.2 then y else acc) x).2 < x.2 := by
              have := hstrict p (by simp)
              rwa [hpx] at this
            refine ⟨x :: y :: pre', post, ?_, ?_, ?_⟩
            · rw [List.cons_append, List.cons_append, ← hys]
            · intro e he
              rcases List.mem_cons.mp he with rfl | he'
              · exact hmin e (by simp)
              · rcases List.mem_cons.mp he' with rfl | he''
                · exact le_trans (le_of_lt hrx) hxy'
                · exact hmin e (List.mem_cons_of_mem x he'')
            · intro e he
              rcases List.mem_cons.mp he with rfl | he'
              · exact hrx
              · rcases List.mem_cons.mp he' with rfl | he''
                · exact lt_of_lt_of_le hrx hxy'
                · exact hstrict e (by simp [he''])

/-- First-minimum property of `argminFirst` on any nonempty list. -/
lemma argminFirst_firstMin {α : Type} (l : List (α × ℚ)) (hl : l ≠ []) :
    ∃ h pre post, argminFirst l = some h ∧ l = pre ++ h :: post
      ∧ (∀ e ∈ l, h.2 ≤ e.2) ∧ (∀ e ∈ pre, h.2 < e.2) := by
  cases l with
  | nil => exact absurd rfl hl
  | cons x xs =>
      obtain ⟨pre, post, heq, hmin, hstrict⟩ := foldl_min_firstMin xs x
      exact ⟨_, pre, post, rfl, heq, hmin, hstrict⟩

/-- C5: for a nonempty catalogue, the hardest manipulation reported by
the driver is an entry of the per-type mean list `avg_scores` whose mean
is minimal among all entries, and every entry occurring before it in
catalogue iteration order has a strictly greater mean — the
first-minimum tie-break. -/
theorem C5_hardest_manipulation_first_min (rows : List ResultRow)
    (catalogue : List (String × String)) (hK : catalogue ≠ []) :
    ∃ h pre post,
      hardest_manip rows catalogue = some h
      ∧ avg_scores rows catalogue = pre ++ h :: post
      ∧ (∀ e ∈ avg_scores rows catalogue, h.2 ≤ e.2)
      ∧ (∀ e ∈ pre, h.2 < e.2) := by
  have hne : avg_scores rows catalogue ≠ [] := by
    intro hcon
    have hlen : catalogue.length = 0 := by
      simpa [avg_scores] using congrArg List.length hcon
    exact hK (List.length_eq_zero.mp hlen)
  obtain ⟨h, pre, post, h1, h2, h3, h4⟩ := argminFirst_firstMin (avg_scores rows catalogue) hne
  exact ⟨h, pre, post, h1, h2, h3, h4⟩

/-- A three-entry catalogue as in the spec example of section 8. -/
def exampleCatalogue : List (String × String) :=
  [("a", "crop"), ("b", "blur"), ("c", "flip")]

/-- Two rows whose columns have means 80, 40 and 95. -/
def exampleRows : List ResultRow :=
  [⟨"i1", [80, 40, 95]⟩, ⟨"i2", [80, 40, 95]⟩]

/-- C5 witness: on the concrete three-entry catalogue the selected
hardest manipulation is a first minimum of the mean list. -/
theorem C5_hardest_manipulation_first_min_witness :
    exampleCatalogue ≠ []
    ∧ ∃ h pre post,
        hardest_manip exampleRows exampleCatalogue = some h
        ∧ avg_scores exampleRows exampleCatalogue = pre ++ h :: post
        ∧ (∀ e ∈ avg_scores exampleRows exampleCatalogue, h.2 ≤ e.2)
        ∧ (∀ e ∈ pre, h.2 < e.2) :=
  ⟨by simp [exampleCatalogue],
    C5_hardest_manipulation_first_min exampleRows exampleCatalogue
      (by simp [exampleCatalogue])⟩

end ImageBench
